import Mathlib

/-!
Shallow embedding of the spreadsheet-extraction core of the Shengshui
repository (`generate_products.py`, `sync_products.py`) and proofs of the
specified properties.  Strings are modelled as Lean `String` values; where a
function inspects individual characters we work on the underlying `List Char`.
-/

set_option autoImplicit false

namespace Shengshui

/-! ### Character classes and Python-style string primitives -/

/-- ASCII uppercase letter test, the character class `[A-Z]`. -/
def isUpperAZ (c : Char) : Bool := decide ('A' ≤ c ∧ c ≤ 'Z')

/-- ASCII decimal digit test, the character class `[0-9]`. -/
def isDigit09 (c : Char) : Bool := decide ('0' ≤ c ∧ c ≤ '9')

/-- Whitespace as stripped by Python `str.strip()` with no argument
(space, tab, newline, carriage return, vertical tab, form feed). -/
def isPySpace (c : Char) : Bool :=
  c = ' ' ∨ c = '\t' ∨ c = '\n' ∨ c = '\r' ∨ c = '\x0b' ∨ c = '\x0c'

/-- Strip a predicate from both ends of a character list. -/
def stripList (l : List Char) : List Char :=
  ((l.dropWhile isPySpace).reverse.dropWhile isPySpace).reverse

/-- Python `str.strip()`. -/
def pyStrip (s : String) : String := ⟨stripList s.toList⟩

/-- ASCII lowercasing of one character, as Python `str.lower()` acts on
the characters appearing in the headers of this program. -/
def lowerChar (c : Char) : Char :=
  if isUpperAZ c then Char.ofNat (c.toNat + 32) else c

/-- Python `str.lower()`. -/
def pyLower (s : String) : String := ⟨s.toList.map lowerChar⟩

/-- Digits-only decimal reading: `some` iff the list is a nonempty run of
ASCII digits. -/
def digitsToNat? (l : List Char) : Option Nat :=
  if l ≠ [] ∧ l.all isDigit09 then
    some (l.foldl (fun a c => a * 10 + (c.toNat - 48)) 0)
  else none

/-- Python `int(s)` on a string: surrounding whitespace is ignored, an
optional sign precedes a nonempty run of decimal digits; anything else
raises `ValueError`, modelled as `none`. -/
def pyInt? (s : String) : Option Int :=
  match stripList s.toList with
  | '+' :: rest => (digitsToNat? rest).map Int.ofNat
  | '-' :: rest => (digitsToNat? rest).map (fun n => -(n : Int))
  | rest => (digitsToNat? rest).map Int.ofNat

/-- Python sequence indexing `l[i]`: a negative index counts from the end;
`none` models `IndexError` (index out of range of the sequence). -/
def pyGet {α : Type} (l : List α) (i : Int) : Option α :=
  let j : Int := if i < 0 then i + l.length else i
  if 0 ≤ j then l.get? j.toNat else none

/-! ### Cell Reference Decoder (`col_to_index`) -/

/-- `col_to_index` from `generate_products.py`:
`n = 0; for c in col: n = n * 26 + (ord(c) - 64); return n - 1`. -/
def col_to_index (col : List Char) : Int :=
  (col.foldl (fun n c => n * 26 + ((c.toNat : Int) - 64)) 0) - 1

/-- The formula the spec gives for the decoder: `Σ letter_value * 26^power` with the
letters processed most-significant first and letter_value('A') = 1 …
letter_value('Z') = 26.  (Stated from the spec for comparison with
`col_to_index`.) -/
def specColSum : List Char → Nat
  | [] => 0
  | c :: u => (c.toNat - 64) * 26 ^ u.length + specColSum u

/-- Value of the all-`'A'` string of length `n` under `specColSum`,
the smallest value any uppercase string of that length can take. -/
def onesVal : Nat → Nat
  | 0 => 0
  | n + 1 => onesVal n + 26 ^ n

/-! #### Lemmas about the decoder -/

theorem letterVal_pos {c : Char} (hc : isUpperAZ c = true) : 1 ≤ c.toNat - 64 := by
  have h : 'A' ≤ c ∧ c ≤ 'Z' := by simpa [isUpperAZ] using hc
  have h65 : 65 ≤ c.toNat := h.1
  omega

theorem letterVal_le {c : Char} (hc : isUpperAZ c = true) : c.toNat - 64 ≤ 26 := by
  have h : 'A' ≤ c ∧ c ≤ 'Z' := by simpa [isUpperAZ] using hc
  have h90 : c.toNat ≤ 90 := h.2
  omega

/-- Horner evaluation with an arbitrary accumulator. -/
theorem foldl_horner (l : List Char) (n : Int) :
    l.foldl (fun n c => n * 26 + ((c.toNat : Int) - 64)) n
      = n * 26 ^ l.length + l.foldl (fun n c => n * 26 + ((c.toNat : Int) - 64)) 0 := by
  induction l generalizing n with
  | nil => simp
  | cons c u ih =>
    simp only [List.foldl_cons, List.length_cons]
    rw [ih (n * 26 + ((c.toNat : Int) - 64)), ih (0 * 26 + ((c.toNat : Int) - 64))]
    ring

/-- On uppercase letters the fold of the decoder computes the positional
sum given by the spec. -/
theorem foldl_eq_specColSum (l : List Char) (hl : ∀ c ∈ l, isUpperAZ c = true) :
    l.foldl (fun n c => n * 26 + ((c.toNat : Int) - 64)) 0 = (specColSum l : Int) := by
  induction l with
  | nil => simp [specColSum]
  | cons c u ih =>
    have hc : isUpperAZ c = true := hl c (List.mem_cons_self c u)
    have hu : ∀ d ∈ u, isUpperAZ d = true := fun d hd => hl d (List.mem_cons_of_mem c hd)
    have h65 : 65 ≤ c.toNat := by
      have h : 'A' ≤ c ∧ c ≤ 'Z' := by simpa [isUpperAZ] using hc
      exact h.1
    rw [List.foldl_cons, foldl_horner]
    simp only [specColSum, ih hu]
    push_cast [Nat.cast_sub (by omega : 64 ≤ c.toNat)]
    ring

theorem onesVal_mul : ∀ n : Nat, 25 * onesVal n + 1 = 26 ^ n := by
  intro n
  induction n with
  | zero => simp [onesVal]
  | succ n ih =>
    simp only [onesVal, pow_succ]
    omega

theorem onesVal_mono : ∀ {m n : Nat}, m ≤ n → onesVal m ≤ onesVal n := by
  intro m n h
  induction h with
  | refl => exact le_rfl
  | step h ih => exact le_trans ih (by simp [onesVal])

/-- Lower bound: an uppercase string of length `n` decodes to at least the
all-`'A'` value. -/
theorem onesVal_le_specColSum (l : List Char) (hl : ∀ c ∈ l, isUpperAZ c = true) :
    onesVal l.length ≤ specColSum l := by
  induction l with
  | nil => simp [onesVal, specColSum]
  | cons c u ih =>
    have hc := letterVal_pos (hl c (List.mem_cons_self c u))
    have hu : ∀ d ∈ u, isUpperAZ d = true := fun d hd => hl d (List.mem_cons_of_mem c hd)
    have := ih hu
    simp only [specColSum, List.length_cons, onesVal]
    have h1 : 1 * 26 ^ u.length ≤ (c.toNat - 64) * 26 ^ u.length :=
      Nat.mul_le_mul_right _ hc
    omega

/-- Upper bound: an uppercase string of length `n` decodes to at most the
all-`'Z'` value, which is `26 * onesVal n`. -/
theorem specColSum_le (l : List Char) (hl : ∀ c ∈ l, isUpperAZ c = true) :
    specColSum l ≤ 26 * onesVal l.length := by
  induction l with
  | nil => simp [onesVal, specColSum]
  | cons c u ih =>
    have hc := letterVal_le (hl c (List.mem_cons_self c u))
    have hu : ∀ d ∈ u, isUpperAZ d = true := fun d hd => hl d (List.mem_cons_of_mem c hd)
    have := ih hu
    simp only [specColSum, List.length_cons, onesVal]
    have h1 : (c.toNat - 64) * 26 ^ u.length ≤ 26 * 26 ^ u.length :=
      Nat.mul_le_mul_right _ hc
    have h2 : 26 * (onesVal u.length + 26 ^ u.length)
        = 26 * onesVal u.length + 26 * 26 ^ u.length := by ring
    omega

/-- Strings of smaller length decode strictly below strings of larger
length (uppercase letters only). -/
theorem specColSum_lt_of_length_lt {s t : List Char}
    (hs : ∀ c ∈ s, isUpperAZ c = true) (ht : ∀ c ∈ t, isUpperAZ c = true)
    (h : s.length < t.length) : specColSum s < specColSum t := by
  have h1 : specColSum s ≤ 26 * onesVal s.length := specColSum_le s hs
  have h2 : onesVal t.length ≤ specColSum t := onesVal_le_specColSum t ht
  have h3 : 26 * onesVal s.length < onesVal (s.length + 1) := by
    have := onesVal_mul s.length
    simp only [onesVal]
    omega
  have h4 : onesVal (s.length + 1) ≤ onesVal t.length := onesVal_mono h
  omega

/-- Same-length lexicographically smaller strings decode strictly below
(uppercase letters only). -/
theorem specColSum_lt_of_lex {s t : List Char}
    (hs : ∀ c ∈ s, isUpperAZ c = true) (ht : ∀ c ∈ t, isUpperAZ c = true)
    (hlen : s.length = t.length) (h : List.Lex (· < ·) s t) :
    specColSum s < specColSum t := by
  induction h with
  | nil => simp at hlen
  | @cons c u v _h ih =>
    have hu : ∀ d ∈ u, isUpperAZ d = true := fun d hd => hs d (List.mem_cons_of_mem c hd)
    have hv : ∀ d ∈ v, isUpperAZ d = true := fun d hd => ht d (List.mem_cons_of_mem c hd)
    have hlen' : u.length = v.length := by simpa using hlen
    simp only [specColSum, hlen']
    exact Nat.add_lt_add_left (ih hu hv hlen') _
  | @rel a u b v hab =>
    have ha := hs a (List.mem_cons_self a u)
    have hb := ht b (List.mem_cons_self b v)
    have hu : ∀ d ∈ u, isUpperAZ d = true := fun d hd => hs d (List.mem_cons_of_mem a hd)
    have hv : ∀ d ∈ v, isUpperAZ d = true := fun d hd => ht d (List.mem_cons_of_mem b hd)
    have hlen' : u.length = v.length := by simpa using hlen
    have hab' : a.toNat < b.toNat := hab
    have h65 : 65 ≤ a.toNat := by
      have h : 'A' ≤ a ∧ a ≤ 'Z' := by simpa [isUpperAZ] using ha
      exact h.1
    have hval : a.toNat - 64 + 1 ≤ b.toNat - 64 := by omega
    have h1 : specColSum u ≤ 26 * onesVal u.length := specColSum_le u hu
    have h2 : onesVal v.length ≤ specColSum v := onesVal_le_specColSum v hv
    have h3 : 26 * onesVal u.length < 26 ^ u.length + onesVal u.length := by
      have := onesVal_mul u.length
      omega
    rw [hlen'] at h1 h3
    simp only [specColSum, hlen']
    have hu_lt : specColSum u < 26 ^ v.length + specColSum v := by omega
    have hB : (a.toNat - 64) * 26 ^ v.length + (26 ^ v.length + specColSum v)
        = ((a.toNat - 64) + 1) * 26 ^ v.length + specColSum v := by ring
    have hC : ((a.toNat - 64) + 1) * 26 ^ v.length ≤ (b.toNat - 64) * 26 ^ v.length :=
      Nat.mul_le_mul_right _ hval
    omega

/-- The decoder, written out against the spec formula. -/
theorem col_to_index_eq (l : List Char) (hl : ∀ c ∈ l, isUpperAZ c = true) :
    col_to_index l = (specColSum l : Int) - 1 := by
  unfold col_to_index
  rw [foldl_eq_specColSum l hl]

/-! ### Shared String Table Reader (`read_shared_strings`)

The shared-strings part is abstracted after XML parsing: `none` models the
part being absent from the package (the `KeyError` branch); otherwise each
string item `si` is the list of its text-run `t` descendants, the text
of each run being `Option String` (`t.text` may be `None`). -/

/-- `read_shared_strings` from `generate_products.py`. -/
def read_shared_strings (part : Option (List (List (Option String)))) : List String :=
  match part with
  | none => []
  | some sis => sis.map (fun si => String.join (si.map (fun t => t.getD "")))

/-! ### Workbook Topology Resolver (`get_first_sheet_path`)

The workbook part is abstracted to its ordered list of sheet declarations
(`wb.find` on `sheets/sheet` returns the first), a sheet to its optional
`name` and relationship-id attributes, and the relationships part to its
ordered list of `Relationship` entries with optional `Id` / `Target`. -/

structure WSheet where
  name : Option String
  rid : Option String
deriving DecidableEq, Repr

structure Rel where
  id : Option String
  target : Option String
deriving DecidableEq, Repr

/-- The three fatal topology errors raised by `get_first_sheet_path`
(`ValueError` messages in the source, one constructor per message). -/
inductive TopoErr where
  | missingSheet
  | missingRelationshipId
  | unresolvedRelationship
deriving DecidableEq, Repr

/-- Target of the first relationship whose `Id` attribute equals `rid`
(the loop with `break` in the source); `none` when no entry matches or the
first matching entry has no `Target` attribute. -/
def firstTarget (rels : List Rel) (rid : String) : Option String :=
  (rels.find? (fun rel => rel.id = some rid)).bind Rel.target

/-- `target.lstrip("/")` followed by the `xl/` rooting check in the source. -/
def normTarget (target : String) : String :=
  let sheet_path : String := ⟨target.toList.dropWhile (· = '/')⟩
  if "xl/".toList.isPrefixOf sheet_path.toList then sheet_path else "xl/" ++ sheet_path

/-- `get_first_sheet_path` from `generate_products.py`.  `if not rid` and
`if not target` are Python falsiness tests: they fire when the optional
attribute is absent or the empty string, which `Option.getD "" = ""`
renders exactly. -/
def get_first_sheet_path (sheets : List WSheet) (rels : List Rel) :
    Except TopoErr (String × String) :=
  match sheets.head? with
  | none => .error .missingSheet
  | some sheet =>
    let name := sheet.name.getD "Sheet1"
    let rid := sheet.rid
    if rid.getD "" = "" then .error .missingRelationshipId
    else
      let target := firstTarget rels (rid.getD "")
      if target.getD "" = "" then .error .unresolvedRelationship
      else .ok (name, normTarget (target.getD ""))

/-! ### Worksheet Table Reader (`read_sheet_rows`)

A worksheet is abstracted after XML parsing to its list of `row` elements,
each a list of `c` (cell) elements; a cell keeps its optional `r` and `t`
attributes and its optional `v` child whose text is itself optional. -/

structure XCell where
  r : Option String
  t : Option String
  v : Option (Option String)
deriving DecidableEq, Repr

/-- `re.match` of `([A-Z]+)(\d+)$` against the cell reference: a maximal
nonempty run of `[A-Z]`, then a nonempty run of digits reaching the end of
the string; returns the letter group. -/
def matchRef (ref : String) : Option (List Char) :=
  let l := ref.toList
  let letters := l.takeWhile isUpperAZ
  let rest := l.drop letters.length
  if letters ≠ [] ∧ rest ≠ [] ∧ rest.all isDigit09 then some letters else none

/-- The resolved value of one cell: `raw` is the `v` text (empty when the
`v` node or its text is absent); a `t="s"` cell looks `int(raw)` up in the
shared strings, keeping `raw` on any failure (`except Exception: pass`). -/
def cellValue (shared : List String) (c : XCell) : String :=
  let raw : String := match c.v with
    | none => ""
    | some txt => txt.getD ""
  if c.t = some "s" then
    match pyInt? raw with
    | some i =>
      match pyGet shared i with
      | some s => s
      | none => raw
    | none => raw
  else raw

/-- Insert key `k` with value `val` into a Python-dict-like association
list: an existing key keeps its position and gets the new value, a new key
is appended. -/
def upsert (m : List (Nat × String)) (k : Nat) (val : String) : List (Nat × String) :=
  if m.any (fun p => p.1 = k) then
    m.map (fun p => if p.1 = k then (k, val) else p)
  else m ++ [(k, val)]

/-- Process one cell element into the per-row column map: skip it when its
reference does not match the address pattern, otherwise store its resolved
value at its decoded column index. -/
def procCell (shared : List String) (m : List (Nat × String)) (c : XCell) :
    List (Nat × String) :=
  match matchRef (c.r.getD "") with
  | none => m
  | some letters => upsert m (col_to_index letters).toNat (cellValue shared c)

/-- The sparse column map of one row element. -/
def rowMap (shared : List String) (row : List XCell) : List (Nat × String) :=
  row.foldl (procCell shared) []

/-- `r.get(k, "")` on a row map. -/
def mapGetD (m : List (Nat × String)) (k : Nat) : String :=
  ((m.find? (fun p => p.1 = k)).map Prod.snd).getD ""

/-- `max(r.keys())` (keys are naturals, so folding `max` from `0` agrees
with Python `max` on the nonempty maps this is applied to). -/
def maxKey (m : List (Nat × String)) : Nat :=
  (m.map Prod.fst).foldl Nat.max 0

/-- `read_sheet_rows` from `generate_products.py`: build the sparse maps,
drop the empty ones, then densify every kept row to width
`max_col + 1` filling gaps with `""`. -/
def read_sheet_rows (ws : List (List XCell)) (shared : List String) :
    List (List String) :=
  let rows := (ws.map (rowMap shared)).filter (fun r => r ≠ [])
  if rows = [] then []
  else
    let max_col := (rows.map maxKey).foldl Nat.max 0
    rows.map (fun r => (List.range (max_col + 1)).map (fun i => mapGetD r i))

/-! ### Schema Mapper (`build_products`) -/

/-- `normalize_header` from `generate_products.py` (`str(s or "")` is the
identity on the strings a table holds). -/
def normalize_header (s : String) : String := pyLower (pyStrip s)

structure ProductRecord where
  name : String
  image : String
  desc : String
  url : String
deriving DecidableEq, Repr

/-- The error outcomes of `build_products`: the `MissingHeaders`
`ValueError` carrying the sorted missing field names, or the uncaught
`IndexError` a too-short row would raise on `row[idx[field]]`. -/
inductive BuildErr where
  | missingHeaders (fields : List String)
  | indexErr
deriving DecidableEq, Repr

/-- The four required logical fields, already in the alphabetical order
`sorted` produces; `sorted(wanted - set(idx.keys()))` on the set of the
four names equals filtering this list. -/
def wantedSorted : List String := ["desc", "image", "name", "url"]

/-- First column index whose normalized header equals `field`
(`h not in idx` makes the first occurrence win). -/
def headerIdx (headers : List String) (field : String) : Option Nat :=
  match headers with
  | [] => none
  | h :: rest => if h = field then some 0 else (headerIdx rest field).map (· + 1)

/-- The record one data row is mapped to, `none` when the row is skipped
because all four trimmed values are empty (used to state what the
mapper loop emits). -/
def mappedRecord? (iName iImage iDesc iUrl : Nat) (row : List String) :
    Option ProductRecord :=
  let name := pyStrip (row.getD iName "")
  let image := pyStrip (row.getD iImage "")
  let desc := pyStrip (row.getD iDesc "")
  let url := pyStrip (row.getD iUrl "")
  if name = "" ∧ image = "" ∧ url = "" ∧ desc = "" then none
  else some ⟨name, image, desc, url⟩

/-- `row[i]` with Python semantics: out of range raises `IndexError`. -/
def getCol (row : List String) (i : Nat) : Except BuildErr String :=
  match row.get? i with
  | some v => .ok v
  | none => .error .indexErr

/-- One data row of the mapper loop: read and trim the four mapped
columns, skip the row when all four are empty. -/
def buildRow (iName iImage iDesc iUrl : Nat) (row : List String) :
    Except BuildErr (Option ProductRecord) := do
  let name := pyStrip (← getCol row iName)
  let image := pyStrip (← getCol row iImage)
  let desc := pyStrip (← getCol row iDesc)
  let url := pyStrip (← getCol row iUrl)
  if name = "" ∧ image = "" ∧ url = "" ∧ desc = "" then
    pure none
  else
    pure (some ⟨name, image, desc, url⟩)

/-- The mapper loop over `table[1:]`, preserving row order. -/
def buildRows (iName iImage iDesc iUrl : Nat) :
    List (List String) → Except BuildErr (List ProductRecord)
  | [] => .ok []
  | row :: rest => do
    let rec? ← buildRow iName iImage iDesc iUrl row
    let tail ← buildRows iName iImage iDesc iUrl rest
    match rec? with
    | none => pure tail
    | some p => pure (p :: tail)

/-- `build_products` from `generate_products.py`, from the extracted table
on: normalize the first row into headers, map each required field to its
first column, fail with the sorted missing fields if any, then fold the
data rows. -/
def build_products (table : List (List String)) : Except BuildErr (List ProductRecord) :=
  match table with
  | [] => .ok []
  | hd :: rows =>
    let headers := hd.map normalize_header
    let missing := wantedSorted.filter (fun f => headerIdx headers f = none)
    if missing ≠ [] then .error (.missingHeaders missing)
    else
      match headerIdx headers "name", headerIdx headers "image",
            headerIdx headers "desc", headerIdx headers "url" with
      | some iName, some iImage, some iDesc, some iUrl =>
        buildRows iName iImage iDesc iUrl rows
      | _, _, _, _ => .error (.missingHeaders missing)

/-! ### JSON sync utility (`sync_products.py`)

The marker splice of `main` is modelled as a pure function on the text of
`products.html` (a list of characters) and the pretty-printed JSON string;
`none` models the `SystemExit` refusal. -/

/-- The `START` marker constant of `sync_products.py`. -/
def START : List Char := "// PRODUCTS_DATA_START".toList

/-- The `END` marker constant of `sync_products.py`. -/
def END : List Char := "// PRODUCTS_DATA_END".toList

/-- Python `str.find`: index of the first occurrence of `nee` in `hay`,
`none` standing for `-1`. -/
def findSub (nee : List Char) : List Char → Option Nat
  | [] => if nee = [] then some 0 else none
  | c :: rest =>
    if nee.isPrefixOf (c :: rest) then some 0
    else (findSub nee rest).map (· + 1)

/-- `nee` occurs in `hay` starting at index `i`. -/
def occursAt (nee hay : List Char) (i : Nat) : Prop :=
  ∃ pre post, hay = pre ++ nee ++ post ∧ pre.length = i

/-- The replacement text `"\n    const PRODUCTS = " + pretty + ";\n    "`. -/
def syncRepl (pretty : List Char) : List Char :=
  "\n    const PRODUCTS = ".toList ++ pretty ++ ";\n    ".toList

/-- The text rewrite of `main` in `sync_products.py`: refuse unless both
markers are found with the end marker not before the start marker, keep
everything up to and including the start marker and everything from the
end marker on, and put the replacement in between. -/
def sync_products (html pretty : List Char) : Option (List Char) :=
  match findSub START html, findSub END html with
  | some start_idx, some end_idx =>
    if end_idx < start_idx then none
    else some (html.take (start_idx + START.length) ++ syncRepl pretty ++ html.drop end_idx)
  | _, _ => none

/-! ### List helper lemmas -/

theorem nat_zero_max (n : Nat) : Nat.max 0 n = n := Nat.max_eq_right (Nat.zero_le n)

theorem nat_max_assoc (a b c : Nat) :
    Nat.max (Nat.max a b) c = Nat.max a (Nat.max b c) := Nat.max_assoc a b c

theorem nat_max_eq_right {a b : Nat} (h : a ≤ b) : Nat.max a b = b := Nat.max_eq_right h

theorem nat_max_eq_left {a b : Nat} (h : b ≤ a) : Nat.max a b = a := Nat.max_eq_left h

/-- Folding `Nat.max` with an arbitrary accumulator. -/
theorem foldl_max_acc (l : List Nat) (a : Nat) :
    l.foldl Nat.max a = Nat.max a (l.foldl Nat.max 0) := by
  induction l generalizing a with
  | nil => simp
  | cons x l ih =>
    simp only [List.foldl_cons]
    rw [ih (Nat.max a x), ih (Nat.max 0 x), nat_zero_max, nat_max_assoc]

/-- Every element is at most the `Nat.max`-fold. -/
theorem le_foldl_max (l : List Nat) : ∀ x ∈ l, x ≤ l.foldl Nat.max 0 := by
  induction l with
  | nil => simp
  | cons y l ih =>
    intro x hx
    rw [List.foldl_cons, foldl_max_acc, nat_zero_max]
    rcases List.mem_cons.mp hx with h | h
    · exact h ▸ Nat.le_max_left _ _
    · exact le_trans (ih x h) (Nat.le_max_right _ _)

/-- The `Nat.max`-fold of a nonempty list is one of its elements. -/
theorem foldl_max_mem (l : List Nat) (hl : l ≠ []) : l.foldl Nat.max 0 ∈ l := by
  induction l with
  | nil => exact absurd rfl hl
  | cons x l ih =>
    rw [List.foldl_cons, foldl_max_acc, nat_zero_max]
    by_cases h : l = []
    · subst h
      simp
    · have hmem := ih h
      rcases Nat.le_total x (l.foldl Nat.max 0) with h' | h'
      · rw [nat_max_eq_right h']
        exact List.mem_cons_of_mem x hmem
      · rw [nat_max_eq_left h']
        exact List.mem_cons_self x l

/-! ### Lemmas about the Schema Mapper -/

theorem headerIdx_none_iff (headers : List String) (field : String) :
    headerIdx headers field = none ↔ ∀ h ∈ headers, h ≠ field := by
  induction headers with
  | nil => simp [headerIdx]
  | cons h rest ih =>
    by_cases hh : h = field
    · simp [headerIdx, hh]
    · rw [headerIdx, if_neg hh]
      constructor
      · intro hmap x hx
        rcases List.mem_cons.mp hx with rfl | hx'
        · exact hh
        · refine (ih.mp ?_) x hx'
          cases hr : headerIdx rest field with
          | none => rfl
          | some k => rw [hr] at hmap; simp at hmap
      · intro hall
        have hnone : headerIdx rest field = none :=
          ih.mpr (fun x hx => hall x (List.mem_cons_of_mem h hx))
        rw [hnone]
        rfl

/-- What a successful header lookup means: the index is in range, the
header there equals the field, and no earlier header does (first
occurrence wins). -/
theorem headerIdx_some (headers : List String) (field : String) (i : Nat)
    (h : headerIdx headers field = some i) :
    i < headers.length ∧ headers.get? i = some field ∧
      ∀ j < i, headers.get? j ≠ some field := by
  induction headers generalizing i with
  | nil => simp [headerIdx] at h
  | cons hd rest ih =>
    by_cases hh : hd = field
    · simp only [headerIdx, if_pos hh, Option.some.injEq] at h
      subst h
      refine ⟨Nat.succ_pos _, by simp [hh], ?_⟩
      intro j hj
      omega
    · rw [headerIdx, if_neg hh] at h
      cases hr : headerIdx rest field with
      | none => rw [hr] at h; simp at h
      | some i' =>
      rw [hr] at h
      simp only [Option.map] at h
      injection h with h
      subst h
      obtain ⟨hlt, hget, hfirst⟩ := ih i' hr
      refine ⟨by simpa using Nat.succ_lt_succ hlt, by simpa using hget, ?_⟩
      intro j hj
      cases j with
      | zero => simpa using hh
      | succ j' =>
        have : j' < i' := by omega
        simpa using hfirst j' this

theorem getCol_error {row : List String} {i : Nat} {e : BuildErr}
    (h : getCol row i = .error e) : e = .indexErr := by
  unfold getCol at h
  cases hr : row.get? i with
  | none => rw [hr] at h; injection h with h; exact h.symm
  | some v => rw [hr] at h; exact Except.noConfusion h

theorem get?_of_lt {α : Type} [Inhabited α] {l : List α} {i : Nat} (h : i < l.length) :
    ∃ v, l.get? i = some v := by
  cases hr : l.get? i with
  | none => exact absurd (List.get?_eq_none.mp hr) (by omega)
  | some v => exact ⟨v, rfl⟩

theorem getCol_ok {row : List String} {i : Nat} (h : i < row.length) :
    getCol row i = .ok (row.getD i "") := by
  obtain ⟨v, hv⟩ := get?_of_lt (l := row) h
  unfold getCol
  rw [hv, List.getD_eq_getD_get?, hv]
  rfl

/-- Under in-bounds indices the row step of the mapper returns exactly the
mapped record (or the skip). -/
theorem buildRow_ok {iName iImage iDesc iUrl : Nat} {row : List String}
    (h1 : iName < row.length) (h2 : iImage < row.length)
    (h3 : iDesc < row.length) (h4 : iUrl < row.length) :
    buildRow iName iImage iDesc iUrl row = .ok (mappedRecord? iName iImage iDesc iUrl row) := by
  unfold buildRow mappedRecord?
  rw [getCol_ok h1, getCol_ok h2, getCol_ok h3, getCol_ok h4]
  simp only [Bind.bind, Except.bind, pure, Except.pure]
  by_cases hall : pyStrip (row.getD iName "") = "" ∧ pyStrip (row.getD iImage "") = ""
      ∧ pyStrip (row.getD iUrl "") = "" ∧ pyStrip (row.getD iDesc "") = ""
  · rw [if_pos hall, if_pos hall]
  · rw [if_neg hall, if_neg hall]

/-- The row step can only fail with `IndexError`, never `MissingHeaders`. -/
theorem buildRow_cases (iName iImage iDesc iUrl : Nat) (row : List String) :
    (∃ o, buildRow iName iImage iDesc iUrl row = .ok o) ∨
      buildRow iName iImage iDesc iUrl row = .error .indexErr := by
  unfold buildRow
  cases h1 : getCol row iName with
  | error e => right; simp [Bind.bind, Except.bind, h1, getCol_error h1]
  | ok v1 =>
    cases h2 : getCol row iImage with
    | error e => right; simp [Bind.bind, Except.bind, h1, h2, getCol_error h2]
    | ok v2 =>
      cases h3 : getCol row iDesc with
      | error e => right; simp [Bind.bind, Except.bind, h1, h2, h3, getCol_error h3]
      | ok v3 =>
        cases h4 : getCol row iUrl with
        | error e => right; simp [Bind.bind, Except.bind, h1, h2, h3, h4, getCol_error h4]
        | ok v4 =>
          left
          by_cases hall : pyStrip v1 = "" ∧ pyStrip v2 = "" ∧ pyStrip v4 = "" ∧ pyStrip v3 = "" <;>
            simp [Bind.bind, Except.bind, pure, Except.pure, h1, h2, h3, h4, hall]

/-- The mapper loop can only fail with `IndexError`. -/
theorem buildRows_cases (iName iImage iDesc iUrl : Nat) (rows : List (List String)) :
    (∃ l, buildRows iName iImage iDesc iUrl rows = .ok l) ∨
      buildRows iName iImage iDesc iUrl rows = .error .indexErr := by
  induction rows with
  | nil => exact Or.inl ⟨[], rfl⟩
  | cons row rest ih =>
    rcases buildRow_cases iName iImage iDesc iUrl row with ⟨o, ho⟩ | ho
    · rcases ih with ⟨l, hl⟩ | hl
      · left
        cases o with
        | none => exact ⟨l, by simp [buildRows, Bind.bind, Except.bind, pure, Except.pure, ho, hl]⟩
        | some p => exact ⟨p :: l, by simp [buildRows, Bind.bind, Except.bind, pure, Except.pure, ho, hl]⟩
      · right
        cases o <;> simp [buildRows, Bind.bind, Except.bind, pure, Except.pure, ho, hl]
    · right
      simp [buildRows, Bind.bind, Except.bind, pure, Except.pure, ho]

/-- Under in-bounds indices the mapper loop emits exactly the mapped
records in row order. -/
theorem buildRows_ok {iName iImage iDesc iUrl : Nat} {rows : List (List String)}
    (h : ∀ row ∈ rows, iName < row.length ∧ iImage < row.length
        ∧ iDesc < row.length ∧ iUrl < row.length) :
    buildRows iName iImage iDesc iUrl rows
      = .ok (rows.filterMap (mappedRecord? iName iImage iDesc iUrl)) := by
  induction rows with
  | nil => rfl
  | cons row rest ih =>
    obtain ⟨h1, h2, h3, h4⟩ := h row (List.mem_cons_self row rest)
    have hrest := ih (fun r hr => h r (List.mem_cons_of_mem row hr))
    cases hm : mappedRecord? iName iImage iDesc iUrl row with
    | none =>
      simp [buildRows, Bind.bind, Except.bind, pure, Except.pure, buildRow_ok h1 h2 h3 h4, hm,
        hrest, List.filterMap_cons]
    | some p =>
      simp [buildRows, Bind.bind, Except.bind, pure, Except.pure, buildRow_ok h1 h2 h3 h4, hm,
        hrest, List.filterMap_cons]

/-! ### Lemmas about the Worksheet Table Reader -/

theorem upsert_keys (m : List (Nat × String)) (k : Nat) (val : String) :
    (upsert m k val).map Prod.fst
      = if m.any (fun p => p.1 = k) then m.map Prod.fst else m.map Prod.fst ++ [k] := by
  unfold upsert
  split
  · rw [List.map_map]
    refine congrFun (congrArg List.map ?_) m
    funext p
    by_cases hp : p.1 = k <;> simp [hp]
  · simp

theorem any_key_eq_false {m : List (Nat × String)} {k : Nat}
    (h : m.any (fun p => p.1 = k) = false) : k ∉ m.map Prod.fst := by
  intro hk
  obtain ⟨p, hp, hpk⟩ := List.mem_map.mp hk
  have := List.any_eq_false.mp h p hp
  simp [hpk] at this

theorem upsert_nodupKeys {m : List (Nat × String)} {k : Nat} {val : String}
    (h : (m.map Prod.fst).Nodup) : ((upsert m k val).map Prod.fst).Nodup := by
  rw [upsert_keys]
  split
  · exact h
  · rename_i hany
    rw [List.nodup_append]
    exact ⟨h, List.nodup_singleton k,
      by simpa [List.disjoint_singleton] using any_key_eq_false (Bool.eq_false_iff.mpr hany)⟩

theorem procCell_nodupKeys {shared : List String} {m : List (Nat × String)} {c : XCell}
    (h : (m.map Prod.fst).Nodup) : ((procCell shared m c).map Prod.fst).Nodup := by
  unfold procCell
  cases matchRef (c.r.getD "") with
  | none => exact h
  | some letters => exact upsert_nodupKeys h

theorem foldl_procCell_nodupKeys (shared : List String) (cells : List XCell) :
    ∀ m : List (Nat × String), (m.map Prod.fst).Nodup →
      ((cells.foldl (procCell shared) m).map Prod.fst).Nodup := by
  induction cells with
  | nil => exact fun m h => h
  | cons c cells ih => exact fun m h => ih _ (procCell_nodupKeys h)

/-- Keys collected for one row are pairwise distinct. -/
theorem rowMap_nodupKeys (shared : List String) (row : List XCell) :
    ((rowMap shared row).map Prod.fst).Nodup :=
  foldl_procCell_nodupKeys shared row [] (by simp)

theorem find?_of_mem_nodup {m : List (Nat × String)} {k : Nat} {v : String}
    (hnd : (m.map Prod.fst).Nodup) (h : (k, v) ∈ m) :
    m.find? (fun p => p.1 = k) = some (k, v) := by
  induction m with
  | nil => cases h
  | cons a rest ih =>
    rw [List.map_cons, List.nodup_cons] at hnd
    rcases List.mem_cons.mp h with rfl | hmem
    · simp [List.find?]
    · have hak : ¬(a.1 = k) := by
        intro hak
        exact hnd.1 (hak ▸ List.mem_map.mpr ⟨(k, v), hmem, rfl⟩)
      simp only [List.find?]
      rw [decide_eq_false hak]
      exact ih hnd.2 hmem

theorem find?_eq_none_of_forall {m : List (Nat × String)} {k : Nat}
    (h : ∀ v, (k, v) ∉ m) : m.find? (fun p => p.1 = k) = none := by
  induction m with
  | nil => rfl
  | cons a rest ih =>
    have hak : ¬(a.1 = k) := by
      intro hak
      exact h a.2 (by simp [← hak])
    simp only [List.find?]
    rw [decide_eq_false hak]
    exact ih (fun v hv => h v (List.mem_cons_of_mem a hv))

theorem mapGetD_of_mem {m : List (Nat × String)} {k : Nat} {v : String}
    (hnd : (m.map Prod.fst).Nodup) (h : (k, v) ∈ m) : mapGetD m k = v := by
  simp [mapGetD, find?_of_mem_nodup hnd h]

theorem mapGetD_of_not_mem {m : List (Nat × String)} {k : Nat}
    (h : ∀ v, (k, v) ∉ m) : mapGetD m k = "" := by
  simp [mapGetD, find?_eq_none_of_forall h]

theorem le_maxKey {m : List (Nat × String)} {kv : Nat × String} (h : kv ∈ m) :
    kv.1 ≤ maxKey m :=
  le_foldl_max _ _ (List.mem_map.mpr ⟨kv, h, rfl⟩)

theorem maxKey_mem {m : List (Nat × String)} (h : m ≠ []) : ∃ v, (maxKey m, v) ∈ m := by
  have hne : m.map Prod.fst ≠ [] := fun hx => h (List.map_eq_nil_iff.mp hx)
  obtain ⟨p, hp, hpk⟩ := List.mem_map.mp (foldl_max_mem _ hne)
  refine ⟨p.2, ?_⟩
  have hk : maxKey m = p.1 := hpk.symm
  rw [hk, Prod.mk.eta]
  exact hp

/-! ### The cell address pattern -/

theorem digit_not_upper {c : Char} (h : isDigit09 c = true) : isUpperAZ c = false := by
  have hd : '0' ≤ c ∧ c ≤ '9' := by simpa [isDigit09] using h
  rw [isUpperAZ]
  simp only [decide_eq_false_iff_not, not_and]
  intro hA _
  exact absurd (le_trans hA hd.2) (by decide)

theorem mem_takeWhile {p : Char → Bool} (l : List Char) :
    ∀ c ∈ l.takeWhile p, p c = true := by
  induction l with
  | nil => simp
  | cons a l ih =>
    intro c hc
    by_cases ha : p a
    · rw [List.takeWhile_cons_of_pos ha] at hc
      rcases List.mem_cons.mp hc with rfl | hc'
      · exact ha
      · exact ih c hc'
    · rw [List.takeWhile_cons_of_neg ha] at hc
      cases hc

theorem drop_takeWhile_length (p : Char → Bool) (l : List Char) :
    l.drop (l.takeWhile p).length = l.dropWhile p := by
  induction l with
  | nil => rfl
  | cons a l ih =>
    by_cases ha : p a
    · rw [List.takeWhile_cons_of_pos ha, List.dropWhile_cons_of_pos ha, List.length_cons,
        List.drop_succ_cons]
      exact ih
    · rw [List.takeWhile_cons_of_neg ha, List.dropWhile_cons_of_neg ha, List.length_nil,
        List.drop_zero]

theorem takeWhile_append_all {p : Char → Bool} {L D : List Char}
    (hL : ∀ c ∈ L, p c = true) : (L ++ D).takeWhile p = L ++ D.takeWhile p := by
  induction L with
  | nil => simp
  | cons a L ih =>
    have ha : p a = true := hL a (List.mem_cons_self a L)
    rw [List.cons_append, List.takeWhile_cons_of_pos ha,
      ih (fun c hc => hL c (List.mem_cons_of_mem a hc)), List.cons_append]

/-- A successful address match decomposes the reference into a nonempty
uppercase letter group followed by a nonempty digit group. -/
theorem matchRef_eq_some {ref : String} {L : List Char} (h : matchRef ref = some L) :
    ∃ D : List Char, ref.toList = L ++ D ∧ L ≠ [] ∧ (∀ c ∈ L, isUpperAZ c = true)
      ∧ D ≠ [] ∧ (∀ c ∈ D, isDigit09 c = true) := by
  simp only [matchRef] at h
  split at h
  · rename_i hcond
    obtain ⟨hL, hrest, hdig⟩ := hcond
    injection h with h
    subst h
    refine ⟨ref.toList.drop (ref.toList.takeWhile isUpperAZ).length, ?_, hL, ?_, hrest, ?_⟩
    · rw [drop_takeWhile_length, List.takeWhile_append_dropWhile]
    · exact mem_takeWhile ref.toList
    · rw [drop_takeWhile_length] at hdig ⊢
      exact fun c hc => List.all_eq_true.mp hdig c hc
  · cases h

/-- Conversely, any such decomposition makes the address match, with the
letter group as the captured group. -/
theorem matchRef_of_decomp {ref : String} {L D : List Char}
    (hdec : ref.toList = L ++ D) (hL : L ≠ []) (hLu : ∀ c ∈ L, isUpperAZ c = true)
    (hD : D ≠ []) (hDd : ∀ c ∈ D, isDigit09 c = true) : matchRef ref = some L := by
  have htake : ref.toList.takeWhile isUpperAZ = L := by
    rw [hdec, takeWhile_append_all hLu]
    cases D with
    | nil => simp
    | cons d D' =>
      rw [List.takeWhile_cons_of_neg, List.append_nil]
      rw [digit_not_upper (hDd d (List.mem_cons_self d D'))]
      simp
  have hdrop : ref.toList.drop (ref.toList.takeWhile isUpperAZ).length = D := by
    rw [htake, hdec, List.drop_left]
  simp only [matchRef]
  rw [htake] at hdrop
  rw [htake, hdrop, if_pos ⟨hL, hD, List.all_eq_true.mpr hDd⟩]

/-! ### Lemmas about Python indexing -/

theorem pyGet_eq_none_iff {α : Type} (l : List α) (i : Int) :
    pyGet l i = none ↔ (i < -(l.length : Int) ∨ (l.length : Int) ≤ i) := by
  unfold pyGet
  by_cases hneg : i < 0
  · rw [if_pos hneg]
    by_cases hj : (0 : Int) ≤ i + l.length
    · rw [if_pos hj]
      have hlt : (i + (l.length : Int)).toNat < l.length := by omega
      obtain ⟨v, hv⟩ : ∃ v, l.get? (i + (l.length : Int)).toNat = some v := by
        cases hg : l.get? (i + (l.length : Int)).toNat with
        | none => exact absurd (List.get?_eq_none.mp hg) (by omega)
        | some v => exact ⟨v, rfl⟩
      rw [hv]
      constructor
      · intro h; cases h
      · intro h; omega
    · rw [if_neg hj]
      constructor
      · intro _; left; omega
      · intro _; rfl
  · rw [if_neg hneg, if_pos (by omega : (0 : Int) ≤ i)]
    rw [List.get?_eq_none]
    constructor
    · intro h; right; omega
    · intro h
      have : (l.length : Int) ≤ i := by omega
      omega

theorem pyGet_nonneg {α : Type} (l : List α) (i : Int) (h0 : 0 ≤ i) :
    pyGet l i = l.get? i.toNat := by
  unfold pyGet
  rw [if_neg (by omega : ¬ i < 0), if_pos h0]

theorem pyGet_neg {α : Type} (l : List α) (i : Int) (h : i < 0)
    (h2 : -(l.length : Int) ≤ i) : pyGet l i = l.get? (i + l.length).toNat := by
  unfold pyGet
  rw [if_pos h, if_pos (by omega : (0 : Int) ≤ i + l.length)]

/-! ### Lemmas about substring search -/

theorem isPrefixOf_iff (nee hay : List Char) :
    nee.isPrefixOf hay = true ↔ ∃ post, hay = nee ++ post := by
  induction nee generalizing hay with
  | nil => simp [List.isPrefixOf]
  | cons c l ih =>
    cases hay with
    | nil => simp [List.isPrefixOf]
    | cons d hs =>
      simp only [List.isPrefixOf, Bool.and_eq_true, beq_iff_eq, ih]
      constructor
      · rintro ⟨rfl, post, rfl⟩
        exact ⟨post, rfl⟩
      · rintro ⟨post, hpost⟩
        injection hpost with h1 h2
        exact ⟨h1.symm, post, h2⟩

theorem occursAt_zero_iff (nee hay : List Char) :
    occursAt nee hay 0 ↔ ∃ post, hay = nee ++ post := by
  constructor
  · rintro ⟨pre, post, hdec, hlen⟩
    rw [List.length_eq_zero] at hlen
    subst hlen
    exact ⟨post, by simpa using hdec⟩
  · rintro ⟨post, hpost⟩
    exact ⟨[], post, by simpa using hpost, rfl⟩

theorem occursAt_succ_iff (nee : List Char) (c : Char) (rest : List Char) (i : Nat) :
    occursAt nee (c :: rest) (i + 1) ↔ occursAt nee rest i := by
  constructor
  · rintro ⟨pre, post, hdec, hlen⟩
    cases pre with
    | nil => simp at hlen
    | cons p pre' =>
      injection hdec with h1 h2
      exact ⟨pre', post, h2, by simpa using hlen⟩
  · rintro ⟨pre, post, hdec, hlen⟩
    exact ⟨c :: pre, post, by rw [hdec]; rfl, by simpa using hlen⟩

/-- When `findSub` returns an index, the pattern occurs there and nowhere
earlier (Python `find` returns the first occurrence). -/
theorem findSub_some (nee : List Char) :
    ∀ (hay : List Char) (i : Nat), findSub nee hay = some i →
      occursAt nee hay i ∧ ∀ j < i, ¬ occursAt nee hay j := by
  intro hay
  induction hay with
  | nil =>
    intro i h
    unfold findSub at h
    split at h
    · rename_i hnil
      injection h with h
      subst h
      subst hnil
      exact ⟨⟨[], [], rfl, rfl⟩, fun j hj => absurd hj (Nat.not_lt_zero j)⟩
    · cases h
  | cons c rest ih =>
    intro i h
    unfold findSub at h
    by_cases hp : nee.isPrefixOf (c :: rest)
    · rw [if_pos (by simpa using hp)] at h
      injection h with h
      subst h
      obtain ⟨post, hpost⟩ := (isPrefixOf_iff _ _).mp hp
      exact ⟨(occursAt_zero_iff _ _).mpr ⟨post, hpost⟩,
        fun j hj => absurd hj (Nat.not_lt_zero j)⟩
    · rw [if_neg (by simpa using hp)] at h
      cases hfs : findSub nee rest with
      | none => rw [hfs] at h; cases h
      | some i' =>
        rw [hfs] at h
        simp only [Option.map] at h
        injection h with h
        subst h
        obtain ⟨hocc, hmin⟩ := ih i' hfs
        refine ⟨(occursAt_succ_iff _ _ _ _).mpr hocc, ?_⟩
        intro j hj hcon
        cases j with
        | zero =>
          obtain ⟨post, hpost⟩ := (occursAt_zero_iff _ _).mp hcon
          exact hp ((isPrefixOf_iff _ _).mpr ⟨post, hpost⟩)
        | succ j' =>
          exact hmin j' (by omega) ((occursAt_succ_iff _ _ _ _).mp hcon)

/-- When `findSub` finds nothing, the pattern occurs nowhere. -/
theorem findSub_none (nee : List Char) :
    ∀ hay : List Char, findSub nee hay = none → ∀ i, ¬ occursAt nee hay i := by
  intro hay
  induction hay with
  | nil =>
    intro h i hcon
    obtain ⟨pre, post, hdec, hlen⟩ := hcon
    unfold findSub at h
    rcases List.append_eq_nil.mp hdec.symm with ⟨h1, h2⟩
    rcases List.append_eq_nil.mp h1 with ⟨h3, h4⟩
    rw [if_pos h4] at h
    cases h
  | cons c rest ih =>
    intro h i hcon
    unfold findSub at h
    by_cases hp : nee.isPrefixOf (c :: rest)
    · rw [if_pos (by simpa using hp)] at h
      cases h
    · rw [if_neg (by simpa using hp)] at h
      cases hfs : findSub nee rest with
      | some i' => rw [hfs] at h; cases h
      | none =>
        cases i with
        | zero =>
          obtain ⟨post, hpost⟩ := (occursAt_zero_iff _ _).mp hcon
          exact hp ((isPrefixOf_iff _ _).mpr ⟨post, hpost⟩)
        | succ i' =>
          exact ih hfs i' ((occursAt_succ_iff _ _ _ _).mp hcon)

/-- `findSub` finds exactly the first occurrence. -/
theorem findSub_first {nee hay : List Char} {s : Nat} (hocc : occursAt nee hay s)
    (hmin : ∀ j < s, ¬ occursAt nee hay j) : findSub nee hay = some s := by
  cases hfs : findSub nee hay with
  | none => exact absurd hocc (findSub_none nee hay hfs s)
  | some j =>
    obtain ⟨hoccj, hminj⟩ := findSub_some nee hay j hfs
    rcases Nat.lt_trichotomy j s with h | h | h
    · exact absurd hoccj (hmin j h)
    · rw [h]
    · exact absurd hocc (hminj s h)

theorem occursAt_add_length_le {nee hay : List Char} {i : Nat} (h : occursAt nee hay i) :
    i + nee.length ≤ hay.length := by
  obtain ⟨pre, post, hdec, hlen⟩ := h
  rw [hdec]
  simp [List.length_append]
  omega

/-! ### Claim theorems -/

/-- Claim C1: on every nonempty string of uppercase ASCII letters,
`col_to_index` computes `(Σ letter_value * 26^power) - 1` with letters
processed most-significant first and letter values 1..26; it decodes
"A"/"Z"/"AA"/"AB" to 0/25/26/27; and it is strictly monotone in the
standard base-26 ordering of uppercase strings (shorter before longer,
lexicographic among equal lengths). -/
theorem col_to_index_decodes :
    (∀ l : List Char, l ≠ [] → (∀ c ∈ l, isUpperAZ c = true) →
        col_to_index l = (specColSum l : Int) - 1)
    ∧ col_to_index "A".toList = 0
    ∧ col_to_index "Z".toList = 25
    ∧ col_to_index "AA".toList = 26
    ∧ col_to_index "AB".toList = 27
    ∧ (∀ s t : List Char, (∀ c ∈ s, isUpperAZ c = true) → (∀ c ∈ t, isUpperAZ c = true) →
        (s.length < t.length ∨ (s.length = t.length ∧ List.Lex (· < ·) s t)) →
        col_to_index s < col_to_index t) := by
  refine ⟨fun l _ hl => col_to_index_eq l hl, by decide, by decide, by decide, by decide, ?_⟩
  intro s t hs ht hlt
  rw [col_to_index_eq s hs, col_to_index_eq t ht]
  have hspec : specColSum s < specColSum t := by
    rcases hlt with h | ⟨hlen, hlex⟩
    · exact specColSum_lt_of_length_lt hs ht h
    · exact specColSum_lt_of_lex hs ht hlen hlex
  omega

/-- Witness for C1 at the concrete inputs "A" and "AB". -/
theorem col_to_index_decodes_witness :
    col_to_index "AB".toList = (specColSum "AB".toList : Int) - 1
      ∧ col_to_index "A".toList < col_to_index "AB".toList :=
  ⟨col_to_index_decodes.1 "AB".toList (by decide) (by decide),
   col_to_index_decodes.2.2.2.2.2 "A".toList "AB".toList (by decide) (by decide)
     (Or.inl (by decide))⟩

/-- Claim C7: `read_shared_strings` returns `[]` when the shared-strings
part is absent, and otherwise one string per string item in document
order, each the concatenation of the item text runs in run order with an
absent run text contributing the empty string. -/
theorem read_shared_strings_spec :
    read_shared_strings none = []
    ∧ (∀ sis : List (List (Option String)),
        (read_shared_strings (some sis)).length = sis.length
        ∧ ∀ (i : Nat) (si : List (Option String)), sis.get? i = some si →
            (read_shared_strings (some sis)).get? i
              = some (String.join (si.map (fun t => t.getD "")))) := by
  refine ⟨rfl, fun sis => ⟨by simp [read_shared_strings], ?_⟩⟩
  intro i si hsi
  simp only [read_shared_strings]
  rw [List.get?_map, hsi]
  rfl

/-- Witness for C7: a single item split into runs "Al", absent, "pha"
concatenates to "Alpha". -/
theorem read_shared_strings_spec_witness :
    (read_shared_strings (some [[some "Al", none, some "pha"]])).get? 0 = some "Alpha" := by
  have h := (read_shared_strings_spec.2 [[some "Al", none, some "pha"]]).2 0
    [some "Al", none, some "pha"] rfl
  rw [h]
  decide

/-- Claim C3: a cell whose type attribute is the shared-string marker has
its value text resolved as an integer index into the shared strings (with
Python sequence semantics, negative indices counting from the end);
whenever that resolution fails — the text is not an integer, or the index
is out of range of the sequence — the value is the raw unresolved text,
and no error is propagated (the function is total). -/
theorem sharedString_resolution :
    ∀ (shared : List String) (c : XCell), c.t = some "s" →
      ∀ raw : String, (match c.v with | none => "" | some txt => txt.getD "") = raw →
        ((pyInt? raw = none → cellValue shared c = raw)
         ∧ (∀ i : Int, pyInt? raw = some i →
              (i < -(shared.length : Int) ∨ (shared.length : Int) ≤ i) →
              cellValue shared c = raw)
         ∧ (∀ (i : Int) (s : String), pyInt? raw = some i → 0 ≤ i →
              shared.get? i.toNat = some s → cellValue shared c = s)
         ∧ (∀ (i : Int) (s : String), pyInt? raw = some i → i < 0 →
              -(shared.length : Int) ≤ i →
              shared.get? (i + shared.length).toNat = some s → cellValue shared c = s)) := by
  intro shared c ht raw hraw
  simp only [cellValue, ht, if_pos]
  rw [hraw]
  refine ⟨?_, ?_, ?_, ?_⟩
  · intro hint
    simp only [hint]
  · intro i hint hrange
    have hnone := (pyGet_eq_none_iff shared i).mpr hrange
    simp only [hint, hnone]
  · intro i s hint h0 hget
    have hp : pyGet shared i = some s := by rw [pyGet_nonneg shared i h0, hget]
    simp only [hint, hp]
  · intro i s hint hneg hge hget
    have hp : pyGet shared i = some s := by rw [pyGet_neg shared i hneg hge, hget]
    simp only [hint, hp]

/-- Witness for C3: with shared strings ["Alpha", "Beta"], a shared-string
cell with value text "1" resolves to "Beta". -/
theorem sharedString_resolution_witness :
    cellValue ["Alpha", "Beta"] ⟨some "A1", some "s", some (some "1")⟩ = "Beta" :=
  (sharedString_resolution ["Alpha", "Beta"] ⟨some "A1", some "s", some (some "1")⟩
      rfl "1" rfl).2.2.1 1 "Beta" (by decide) (by decide) (by decide)

/-- Claim C8: a cell contributes to its row exactly when its address
attribute matches the pattern `[A-Z]+[0-9]+` (a nonempty uppercase run
followed by a nonempty digit run making up the whole address); a
non-matching cell is skipped, leaving the row map unchanged; a cell whose
value node is absent contributes the empty string; the reader is a total
function, so no cell-level anomaly is fatal. -/
theorem cell_skip_spec :
    (∀ ref : String, (matchRef ref).isSome = true
        ↔ ∃ L D : List Char, ref.toList = L ++ D ∧ L ≠ []
            ∧ (∀ c ∈ L, isUpperAZ c = true) ∧ D ≠ [] ∧ (∀ c ∈ D, isDigit09 c = true))
    ∧ (∀ (shared : List String) (m : List (Nat × String)) (c : XCell),
        matchRef (c.r.getD "") = none → procCell shared m c = m)
    ∧ (∀ (shared : List String) (m : List (Nat × String)) (c : XCell) (L : List Char),
        matchRef (c.r.getD "") = some L →
          procCell shared m c = upsert m (col_to_index L).toNat (cellValue shared c))
    ∧ (∀ (shared : List String) (c : XCell), c.v = none → cellValue shared c = "") := by
  refine ⟨?_, ?_, ?_, ?_⟩
  · intro ref
    constructor
    · intro h
      obtain ⟨L, hL⟩ := Option.isSome_iff_exists.mp h
      obtain ⟨D, hdec, hne, hup, hDne, hdig⟩ := matchRef_eq_some hL
      exact ⟨L, D, hdec, hne, hup, hDne, hdig⟩
    · rintro ⟨L, D, hdec, hne, hup, hDne, hdig⟩
      rw [matchRef_of_decomp hdec hne hup hDne hdig]
      rfl
  · intro shared m c h
    unfold procCell
    rw [h]
  · intro shared m c L h
    unfold procCell
    rw [h]
  · intro shared c hv
    simp only [cellValue, hv]
    by_cases ht : c.t = some "s"
    · rw [if_pos ht]
      have hint : pyInt? "" = none := rfl
      simp only [hint]
    · rw [if_neg ht]

/-- Witness for C8: an address with the digit first is skipped, and a cell
with no value node yields the empty string. -/
theorem cell_skip_spec_witness :
    procCell [] [(0, "x")] ⟨some "1A", none, some (some "y")⟩ = [(0, "x")]
      ∧ cellValue [] ⟨some "A1", none, none⟩ = "" :=
  ⟨cell_skip_spec.2.1 [] [(0, "x")] ⟨some "1A", none, some (some "y")⟩ (by decide),
   cell_skip_spec.2.2.2 [] ⟨some "A1", none, none⟩ rfl⟩

/-- Claim C2: the reader drops rows that yield no cells, densifies every
remaining row to one common width — the maximum column index observed
across all kept rows plus one — filling absent positions with the empty
string, and returns the empty table when no non-empty row existed.  Kept
rows appear in order: the i-th output row densifies the i-th kept row
map. -/
theorem read_sheet_rows_densify (ws : List (List XCell)) (shared : List String) :
    ((ws.map (rowMap shared)).filter (fun r => r ≠ []) = [] → read_sheet_rows ws shared = [])
    ∧ ((ws.map (rowMap shared)).filter (fun r => r ≠ []) ≠ [] →
        ∃ W : Nat,
          (∀ r ∈ (ws.map (rowMap shared)).filter (fun r => r ≠ []),
              ∀ kv ∈ r, kv.1 + 1 ≤ W)
          ∧ (∃ r ∈ (ws.map (rowMap shared)).filter (fun r => r ≠ []),
              ∃ v, (W - 1, v) ∈ r)
          ∧ (read_sheet_rows ws shared).length
              = ((ws.map (rowMap shared)).filter (fun r => r ≠ [])).length
          ∧ (∀ out ∈ read_sheet_rows ws shared, out.length = W)
          ∧ (∀ (i : Nat) (r : List (Nat × String)),
              ((ws.map (rowMap shared)).filter (fun r => r ≠ [])).get? i = some r →
                ∃ out, (read_sheet_rows ws shared).get? i = some out
                  ∧ (∀ j v, (j, v) ∈ r → out.get? j = some v)
                  ∧ (∀ j, j < W → (∀ v, (j, v) ∉ r) → out.get? j = some ""))) := by
  constructor
  · intro h
    simp only [read_sheet_rows, h]
    rfl
  · intro hne
    set kept := (ws.map (rowMap shared)).filter (fun r => r ≠ []) with hkept
    set maxCol := (kept.map maxKey).foldl Nat.max 0 with hmax
    have htable : read_sheet_rows ws shared
        = kept.map (fun r => (List.range (maxCol + 1)).map (fun i => mapGetD r i)) := by
      simp only [read_sheet_rows, ← hkept]
      rw [if_neg hne]
    have hkept_ne : ∀ r ∈ kept, r ≠ [] := by
      intro r hr
      have := (List.mem_filter.mp hr).2
      simpa using this
    have hkept_nodup : ∀ r ∈ kept, (r.map Prod.fst).Nodup := by
      intro r hr
      have hr' := (List.mem_filter.mp hr).1
      obtain ⟨row, _, hrow⟩ := List.mem_map.mp hr'
      rw [← hrow]
      exact rowMap_nodupKeys shared row
    refine ⟨maxCol + 1, ?_, ?_, ?_, ?_, ?_⟩
    · intro r hr kv hkv
      have h1 : kv.1 ≤ maxKey r := le_maxKey hkv
      have h2 : maxKey r ≤ maxCol :=
        le_foldl_max _ _ (List.mem_map.mpr ⟨r, hr, rfl⟩)
      omega
    · have hmapne : kept.map maxKey ≠ [] := by
        intro hx
        exact hne (List.map_eq_nil_iff.mp hx)
      obtain ⟨mk, hmk, hmkeq⟩ := List.mem_map.mp (foldl_max_mem _ hmapne)
      obtain ⟨v, hv⟩ := maxKey_mem (hkept_ne mk hmk)
      refine ⟨mk, hmk, v, ?_⟩
      have : maxCol = maxKey mk := hmkeq.symm
      rw [Nat.add_sub_cancel] at *
      rw [this]
      exact hv
    · rw [htable, List.length_map]
    · intro out hout
      rw [htable] at hout
      obtain ⟨r, _, hr⟩ := List.mem_map.mp hout
      rw [← hr, List.length_map, List.length_range]
    · intro i r hr
      have hrmem : r ∈ kept := List.get?_mem hr
      refine ⟨(List.range (maxCol + 1)).map (fun j => mapGetD r j), ?_, ?_, ?_⟩
      · rw [htable, List.get?_map, hr]
        rfl
      · intro j v hjv
        have hj : j < maxCol + 1 := by
          have h1 : j ≤ maxKey r := le_maxKey hjv
          have h2 : maxKey r ≤ maxCol :=
            le_foldl_max _ _ (List.mem_map.mpr ⟨r, hrmem, rfl⟩)
          omega
        rw [List.get?_map, List.get?_range hj]
        simp only [Option.map]
        rw [mapGetD_of_mem (hkept_nodup r hrmem) hjv]
      · intro j hj habs
        rw [List.get?_map, List.get?_range hj]
        simp only [Option.map]
        rw [mapGetD_of_not_mem habs]

/-- Witness for C2: two rows, one with cells through column C, one with a
single cell in column A, densify to a 2-by-3 table. -/
theorem read_sheet_rows_densify_witness :
    (read_sheet_rows
        [[⟨some "A1", none, some (some "a")⟩, ⟨some "B1", none, some (some "b")⟩,
          ⟨some "C1", none, some (some "c")⟩],
         [⟨some "A2", none, some (some "d")⟩]] []).length = 2 := by
  obtain ⟨W, _, _, hlen, _, _⟩ :=
    (read_sheet_rows_densify
      [[⟨some "A1", none, some (some "a")⟩, ⟨some "B1", none, some (some "b")⟩,
        ⟨some "C1", none, some (some "c")⟩],
       [⟨some "A2", none, some (some "d")⟩]] []).2 (by decide)
  rw [hlen]
  decide

/-- Claim C4: with a header row present, `build_products` fails with
`MissingHeaders` exactly when some required field does not occur among the
trimmed-and-lowercased headers; the error then names exactly the missing
fields, in alphabetical order; header matching is against the normalized
headers, and a successful lookup is the first matching column. -/
theorem missingHeaders_spec (hd : List String) (rows : List (List String)) :
    ((∃ ms, build_products (hd :: rows) = .error (.missingHeaders ms))
        ↔ ∃ f ∈ wantedSorted, ∀ h ∈ hd.map normalize_header, h ≠ f)
    ∧ (∀ ms, build_products (hd :: rows) = .error (.missingHeaders ms) →
        ms = wantedSorted.filter (fun f => headerIdx (hd.map normalize_header) f = none))
    ∧ (∀ f, f ∈ wantedSorted.filter (fun f => headerIdx (hd.map normalize_header) f = none)
        ↔ (f ∈ wantedSorted ∧ ∀ h ∈ hd.map normalize_header, h ≠ f))
    ∧ List.Chain' (fun a b : String => List.Lex (· < ·) a.toList b.toList)
        (wantedSorted.filter (fun f => headerIdx (hd.map normalize_header) f = none))
    ∧ (∀ f i, headerIdx (hd.map normalize_header) f = some i →
        i < hd.length ∧ (hd.map normalize_header).get? i = some f
          ∧ ∀ j < i, (hd.map normalize_header).get? j ≠ some f) := by
  set headers := hd.map normalize_header with hheaders
  set missing := wantedSorted.filter (fun f => headerIdx headers f = none) with hmissing
  have hbp : build_products (hd :: rows)
      = (if missing ≠ [] then .error (.missingHeaders missing)
         else match headerIdx headers "name", headerIdx headers "image",
              headerIdx headers "desc", headerIdx headers "url" with
          | some iName, some iImage, some iDesc, some iUrl =>
            buildRows iName iImage iDesc iUrl rows
          | _, _, _, _ => .error (.missingHeaders missing)) := by
    simp only [build_products, ← hheaders, ← hmissing]
  have hbp_empty : missing = [] → ∃ iN iI iD iU,
      headerIdx headers "name" = some iN ∧ headerIdx headers "image" = some iI
        ∧ headerIdx headers "desc" = some iD ∧ headerIdx headers "url" = some iU := by
    intro hm
    have hall : ∀ f ∈ wantedSorted, ¬(headerIdx headers f = none) := by
      intro f hf hnone
      have : f ∈ missing := by
        rw [hmissing]
        exact List.mem_filter.mpr ⟨hf, by simp [hnone]⟩
      rw [hm] at this
      cases this
    have hsome : ∀ f ∈ wantedSorted, ∃ i, headerIdx headers f = some i := by
      intro f hf
      cases hx : headerIdx headers f with
      | none => exact absurd hx (hall f hf)
      | some i => exact ⟨i, rfl⟩
    obtain ⟨iN, hN⟩ := hsome "name" (by simp [wantedSorted])
    obtain ⟨iI, hI⟩ := hsome "image" (by simp [wantedSorted])
    obtain ⟨iD, hD⟩ := hsome "desc" (by simp [wantedSorted])
    obtain ⟨iU, hU⟩ := hsome "url" (by simp [wantedSorted])
    exact ⟨iN, iI, iD, iU, hN, hI, hD, hU⟩

  refine ⟨?_, ?_, ?_, ?_, ?_⟩
  · constructor
    · rintro ⟨ms, hms⟩
      by_cases hm : missing = []
      · exfalso
        obtain ⟨iN, iI, iD, iU, hN, hI, hD, hU⟩ := hbp_empty hm
        rw [hbp, if_neg (by simp [hm]), hN, hI, hD, hU] at hms
        have hms2 : buildRows iN iI iD iU rows
            = Except.error (BuildErr.missingHeaders ms) := hms
        rcases buildRows_cases iN iI iD iU rows with ⟨l, hl⟩ | hl
        · rw [hl] at hms2
          exact Except.noConfusion hms2
        · rw [hl] at hms2
          injection hms2 with hms2
          exact BuildErr.noConfusion hms2
      · obtain ⟨f, hf⟩ : ∃ f, f ∈ missing := List.exists_mem_of_ne_nil missing hm
        have := List.mem_filter.mp (hmissing ▸ hf)
        refine ⟨f, this.1, ?_⟩
        rw [← headerIdx_none_iff]
        simpa using this.2
    · rintro ⟨f, hf, hnone⟩
      have hfm : f ∈ missing := by
        rw [hmissing]
        refine List.mem_filter.mpr ⟨hf, ?_⟩
        simp [headerIdx_none_iff headers f |>.mpr hnone]
      have hm : missing ≠ [] := fun hx => by rw [hx] at hfm; cases hfm
      exact ⟨missing, by rw [hbp, if_pos hm]⟩
  · intro ms hms
    by_cases hm : missing = []
    · exfalso
      obtain ⟨iN, iI, iD, iU, hN, hI, hD, hU⟩ := hbp_empty hm
      rw [hbp, if_neg (by simp [hm]), hN, hI, hD, hU] at hms
      have hms2 : buildRows iN iI iD iU rows
          = Except.error (BuildErr.missingHeaders ms) := hms
      rcases buildRows_cases iN iI iD iU rows with ⟨l, hl⟩ | hl
      · rw [hl] at hms2
        exact Except.noConfusion hms2
      · rw [hl] at hms2
        injection hms2 with hms2
        exact BuildErr.noConfusion hms2
    · rw [hbp, if_pos hm] at hms
      injection hms with hms
      injection hms with hms
      exact hms.symm
  · intro f
    constructor
    · intro hf
      have := List.mem_filter.mp hf
      refine ⟨this.1, ?_⟩
      rw [← headerIdx_none_iff]
      simpa using this.2
    · rintro ⟨hf, hnone⟩
      refine List.mem_filter.mpr ⟨hf, ?_⟩
      simp [headerIdx_none_iff headers f |>.mpr hnone]
  · have hpw : List.Pairwise (fun a b : String => List.Lex (· < ·) a.toList b.toList)
        wantedSorted := by decide
    exact (hpw.filter _).chain'
  · intro f i h
    obtain ⟨hlt, hget, hfirst⟩ := headerIdx_some headers f i h
    rw [hheaders, List.length_map] at hlt
    exact ⟨hlt, hget, hfirst⟩

/-- Witness for C4: a table whose only missing header is `desc` fails
naming exactly ["desc"]. -/
theorem missingHeaders_spec_witness :
    build_products [["Name", " IMAGE ", "url"]] = .error (.missingHeaders ["desc"]) := by
  obtain ⟨ms, hms⟩ := (missingHeaders_spec ["Name", " IMAGE ", "url"] []).1.mpr
    ⟨"desc", by decide, by decide⟩
  have heq := (missingHeaders_spec ["Name", " IMAGE ", "url"] []).2.1 ms hms
  have hval : wantedSorted.filter
      (fun f => headerIdx (["Name", " IMAGE ", "url"].map normalize_header) f = none)
      = ["desc"] := by decide
  rw [heq, hval] at hms
  exact hms

/-- Claim C5: with all four required headers mapped and every data row
wide enough for the mapped columns, `build_products` emits one record per
data row in order, each holding the four trimmed column values, except
that rows whose four trimmed values are all empty are skipped; no
reordering or deduplication occurs, and a header-only table yields the
empty list. -/
theorem build_products_rows (hd : List String) (rows : List (List String))
    (iN iI iD iU : Nat)
    (hN : headerIdx (hd.map normalize_header) "name" = some iN)
    (hI : headerIdx (hd.map normalize_header) "image" = some iI)
    (hD : headerIdx (hd.map normalize_header) "desc" = some iD)
    (hU : headerIdx (hd.map normalize_header) "url" = some iU)
    (hb : ∀ row ∈ rows, iN < row.length ∧ iI < row.length
        ∧ iD < row.length ∧ iU < row.length) :
    build_products (hd :: rows) = .ok (rows.filterMap (mappedRecord? iN iI iD iU)) := by
  have hM : wantedSorted.filter
      (fun f => headerIdx (hd.map normalize_header) f = none) = [] := by
    rw [List.filter_eq_nil]
    intro f hf
    have : f = "desc" ∨ f = "image" ∨ f = "name" ∨ f = "url" := by
      simpa [wantedSorted] using hf
    rcases this with rfl | rfl | rfl | rfl <;> simp [hN, hI, hD, hU]
  simp only [build_products]
  rw [if_neg (by simp [hM]), hN, hI, hD, hU]
  exact buildRows_ok hb

/-- Witness for C5: the mixed-case, extra-header table from the spec
yields exactly one record, the all-empty row being dropped. -/
theorem build_products_rows_witness :
    build_products [["Name", " IMAGE ", "desc", "URL", "extra"],
        ["Widget", "img.png", "A fine widget", "http://x"], ["", "", "", ""]]
      = .ok [⟨"Widget", "img.png", "A fine widget", "http://x"⟩] := by
  have h := build_products_rows ["Name", " IMAGE ", "desc", "URL", "extra"]
    [["Widget", "img.png", "A fine widget", "http://x"], ["", "", "", ""]]
    0 1 2 3 (by decide) (by decide) (by decide) (by decide) (by decide)
  rw [h]
  exact congrArg Except.ok (by decide)

/-- Every row of the extracted table has the common densified width. -/
theorem read_sheet_rows_mem_length (ws : List (List XCell)) (shared : List String) :
    ∀ out ∈ read_sheet_rows ws shared,
      out.length
        = (((ws.map (rowMap shared)).filter (fun r => r ≠ [])).map maxKey).foldl Nat.max 0
            + 1 := by
  intro out hout
  simp only [read_sheet_rows] at hout
  split at hout
  · cases hout
  · obtain ⟨r, _, hr⟩ := List.mem_map.mp hout
    rw [← hr, List.length_map, List.length_range]

/-- When no required field is reported missing, all four header lookups
succeed. -/
theorem headerIdx_all_some {headers : List String}
    (hm : wantedSorted.filter (fun f => headerIdx headers f = none) = []) :
    ∃ iN iI iD iU, headerIdx headers "name" = some iN
      ∧ headerIdx headers "image" = some iI
      ∧ headerIdx headers "desc" = some iD
      ∧ headerIdx headers "url" = some iU := by
  have hsome : ∀ f ∈ wantedSorted, ∃ i, headerIdx headers f = some i := by
    intro f hf
    cases hx : headerIdx headers f with
    | none =>
      exfalso
      have : f ∈ wantedSorted.filter (fun f => headerIdx headers f = none) :=
        List.mem_filter.mpr ⟨hf, by simp [hx]⟩
      rw [hm] at this
      cases this
    | some i => exact ⟨i, rfl⟩
  obtain ⟨iN, hN⟩ := hsome "name" (by simp [wantedSorted])
  obtain ⟨iI, hI⟩ := hsome "image" (by simp [wantedSorted])
  obtain ⟨iD, hD⟩ := hsome "desc" (by simp [wantedSorted])
  obtain ⟨iU, hU⟩ := hsome "url" (by simp [wantedSorted])
  exact ⟨iN, iI, iD, iU, hN, hI, hD, hU⟩

/-- Claim C9: on any table produced by the reader, schema mapping never
fails with an out-of-range row access — every outcome is either a result
list or a `MissingHeaders` validation error.  The reader densifies every
row (headers included) to one common width, and every mapped index comes
from enumerating the header row, so each `row[idx[field]]` access is in
bounds. -/
theorem build_products_inbounds (ws : List (List XCell)) (shared : List String) :
    (∃ l, build_products (read_sheet_rows ws shared) = .ok l)
    ∨ (∃ ms, build_products (read_sheet_rows ws shared)
        = .error (.missingHeaders ms)) := by
  cases htab : read_sheet_rows ws shared with
  | nil => exact Or.inl ⟨[], rfl⟩
  | cons hd rows =>
    have hw := read_sheet_rows_mem_length ws shared
    have hhd : hd.length
        = (((ws.map (rowMap shared)).filter (fun r => r ≠ [])).map maxKey).foldl Nat.max 0
            + 1 :=
      hw hd (htab ▸ List.mem_cons_self hd rows)
    have hrows : ∀ row ∈ rows, row.length = hd.length := by
      intro row hrow
      rw [hw row (htab ▸ List.mem_cons_of_mem hd hrow), hhd]
    by_cases hm : wantedSorted.filter
        (fun f => headerIdx (hd.map normalize_header) f = none) = []
    · left
      obtain ⟨iN, iI, iD, iU, hN, hI, hD2, hU⟩ := headerIdx_all_some hm
      have hiN : iN < hd.length := by
        have := (headerIdx_some _ _ _ hN).1
        rwa [List.length_map] at this
      have hiI : iI < hd.length := by
        have := (headerIdx_some _ _ _ hI).1
        rwa [List.length_map] at this
      have hiD : iD < hd.length := by
        have := (headerIdx_some _ _ _ hD2).1
        rwa [List.length_map] at this
      have hiU : iU < hd.length := by
        have := (headerIdx_some _ _ _ hU).1
        rwa [List.length_map] at this
      have hb : ∀ row ∈ rows, iN < row.length ∧ iI < row.length
          ∧ iD < row.length ∧ iU < row.length := by
        intro row hrow
        rw [hrows row hrow]
        exact ⟨hiN, hiI, hiD, hiU⟩
      refine ⟨rows.filterMap (mappedRecord? iN iI iD iU), ?_⟩
      simp only [build_products]
      rw [if_neg (by simp [hm]), hN, hI, hD2, hU]
      exact buildRows_ok hb
    · right
      refine ⟨wantedSorted.filter (fun f => headerIdx (hd.map normalize_header) f = none), ?_⟩
      simp only [build_products]
      rw [if_pos hm]

/-- Counterexample to claim C6 as stated: here the first sheet exists,
its relationship-id attribute is present (it is the empty string), and a
relationship entry whose Id matches it exists with a target — so the
claim requires the resolver to return the sheet name and normalized
target — yet `get_first_sheet_path` fails with `MissingRelationshipId`,
because the falsiness test `if not rid` also fires on a present-but-empty
attribute. -/
theorem get_first_sheet_path_empty_rid_cex :
    get_first_sheet_path [⟨some "S", some ""⟩] [⟨some "", some "sheet1.xml"⟩]
        = .error .missingRelationshipId
      ∧ ([⟨some "S", some ""⟩] : List WSheet).head? = some ⟨some "S", some ""⟩
      ∧ (WSheet.mk (some "S") (some "")).rid = some ""
      ∧ (Rel.mk (some "") (some "sheet1.xml")).id = some ""
      ∧ firstTarget [⟨some "", some "sheet1.xml"⟩] "" = some "sheet1.xml" :=
  ⟨rfl, rfl, rfl, rfl, rfl⟩

/-- Claim C6 (amended): the resolver fails with `MissingSheet` exactly
when no sheet declaration exists; with `MissingRelationshipId` exactly
when the first sheet has its relationship-id attribute absent or empty;
with `UnresolvedRelationship` exactly when (the id being non-empty) the
first relationship entry with a matching Id yields no non-empty target —
no entry matches, or the matching entry has its Target attribute absent
or empty; otherwise it returns the sheet display name (default "Sheet1"
when the name attribute is absent) and the target normalized by stripping
leading path separators and prefixing `xl/` when not already rooted
there.  No partial result accompanies an error. -/
theorem get_first_sheet_path_cases (sheets : List WSheet) (rels : List Rel) :
    (get_first_sheet_path sheets rels = .error .missingSheet ↔ sheets.head? = none)
    ∧ (get_first_sheet_path sheets rels = .error .missingRelationshipId
        ↔ ∃ s, sheets.head? = some s ∧ s.rid.getD "" = "")
    ∧ (get_first_sheet_path sheets rels = .error .unresolvedRelationship
        ↔ ∃ s rid, sheets.head? = some s ∧ s.rid = some rid ∧ rid ≠ ""
            ∧ (firstTarget rels rid).getD "" = "")
    ∧ (∀ s rid t, sheets.head? = some s → s.rid = some rid → rid ≠ "" →
        firstTarget rels rid = some t → t ≠ "" →
          get_first_sheet_path sheets rels = .ok (s.name.getD "Sheet1", normTarget t)) := by
  cases hs : sheets.head? with
  | none =>
    have hres : get_first_sheet_path sheets rels = .error .missingSheet := by
      simp only [get_first_sheet_path, hs]
    refine ⟨⟨fun _ => rfl, fun _ => hres⟩, ?_, ?_, ?_⟩
    · constructor
      · intro h
        rw [hres] at h
        injection h with h
        exact TopoErr.noConfusion h
      · rintro ⟨s, hs2, _⟩
        cases hs2
    · constructor
      · intro h
        rw [hres] at h
        injection h with h
        exact TopoErr.noConfusion h
      · rintro ⟨s, rid, hs2, _, _, _⟩
        cases hs2
    · intro s rid t hs2 _ _ _ _
      cases hs2
  | some s0 =>
    by_cases hrid : s0.rid.getD "" = ""
    · have hres : get_first_sheet_path sheets rels = .error .missingRelationshipId := by
        simp only [get_first_sheet_path, hs]
        rw [if_pos hrid]
      refine ⟨?_, ⟨fun _ => ⟨s0, rfl, hrid⟩, fun _ => hres⟩, ?_, ?_⟩
      · constructor
        · intro h
          rw [hres] at h
          injection h with h
          exact TopoErr.noConfusion h
        · intro h
          cases h
      · constructor
        · intro h
          rw [hres] at h
          injection h with h
          exact TopoErr.noConfusion h
        · rintro ⟨s', rid, hs2, hrid2, hne, _⟩
          injection hs2 with hs2
          subst hs2
          rw [hrid2] at hrid
          exact absurd hrid hne
      · intro s' rid t hs2 hrid2 hne _ _
        injection hs2 with hs2
        subst hs2
        rw [hrid2] at hrid
        exact absurd hrid hne
    · obtain ⟨r0, hr0⟩ : ∃ r, s0.rid = some r := by
        cases hx : s0.rid with
        | none => exact absurd (by rw [hx]; rfl) hrid
        | some r => exact ⟨r, rfl⟩
      have hr0ne : r0 ≠ "" := by
        intro hx
        exact hrid (by rw [hr0, hx]; rfl)
      have hgetD : s0.rid.getD "" = r0 := by rw [hr0]; rfl
      by_cases htgt : (firstTarget rels (s0.rid.getD "")).getD "" = ""
      · have hres : get_first_sheet_path sheets rels = .error .unresolvedRelationship := by
          simp only [get_first_sheet_path, hs]
          rw [if_neg hrid, if_pos htgt]
        refine ⟨?_, ?_, ⟨fun _ => ⟨s0, r0, rfl, hr0, hr0ne, by rwa [hgetD] at htgt⟩,
          fun _ => hres⟩, ?_⟩
        · constructor
          · intro h
            rw [hres] at h
            injection h with h
            exact TopoErr.noConfusion h
          · intro h
            cases h
        · constructor
          · intro h
            rw [hres] at h
            injection h with h
            exact TopoErr.noConfusion h
          · rintro ⟨s', hs2, hrid2⟩
            injection hs2 with hs2
            subst hs2
            exact absurd hrid2 hrid
        · intro s' rid t hs2 hrid2 hne htgt2 htne
          injection hs2 with hs2
          subst hs2
          rw [hr0] at hrid2
          injection hrid2 with hrid2
          rw [hgetD, hrid2, htgt2] at htgt
          exact absurd (show t = "" by simpa using htgt) htne
      · have hres : get_first_sheet_path sheets rels
            = .ok (s0.name.getD "Sheet1",
                normTarget ((firstTarget rels (s0.rid.getD "")).getD "")) := by
          simp only [get_first_sheet_path, hs]
          rw [if_neg hrid, if_neg htgt]
        refine ⟨?_, ?_, ?_, ?_⟩
        · constructor
          · intro h
            rw [hres] at h
            exact Except.noConfusion h
          · intro h
            cases h
        · constructor
          · intro h
            rw [hres] at h
            exact Except.noConfusion h
          · rintro ⟨s', hs2, hrid2⟩
            injection hs2 with hs2
            subst hs2
            exact absurd hrid2 hrid
        · constructor
          · intro h
            rw [hres] at h
            exact Except.noConfusion h
          · rintro ⟨s', rid, hs2, hrid2, hne, h3⟩
            injection hs2 with hs2
            subst hs2
            rw [hr0] at hrid2
            injection hrid2 with hrid2
            rw [hgetD, hrid2] at htgt
            exact absurd h3 htgt
        · intro s' rid t hs2 hrid2 hne htgt2 htne
          injection hs2 with hs2
          subst hs2
          rw [hr0] at hrid2
          injection hrid2 with hrid2
          rw [hres, hgetD, hrid2, htgt2]
          rfl

/-- Witness for the amended C6 at a concrete workbook: the second
relationship matches, its leading slash is stripped, and the `xl/` base
is prefixed. -/
theorem get_first_sheet_path_cases_witness :
    get_first_sheet_path [⟨some "Data", some "rId1"⟩]
        [⟨some "rId9", none⟩, ⟨some "rId1", some "/worksheets/sheet1.xml"⟩]
      = .ok ("Data", "xl/worksheets/sheet1.xml") := by
  have h := (get_first_sheet_path_cases [⟨some "Data", some "rId1"⟩]
      [⟨some "rId9", none⟩, ⟨some "rId1", some "/worksheets/sheet1.xml"⟩]).2.2.2
    ⟨some "Data", some "rId1"⟩ "rId1" "/worksheets/sheet1.xml"
    rfl rfl (by decide) (by decide) (by decide)
  rw [h]
  exact congrArg Except.ok (by decide)

/-- Claim C10: when the rewrite succeeds, the output keeps every character
up to and including the first occurrence of the start marker and every
character from the first occurrence of the end marker to the end of the
file, replacing only the span strictly between them with the replacement
text; the rewrite is refused outright when either marker is absent or
when the end marker precedes the start marker. -/
theorem sync_products_frame (html pretty : List Char) :
    (∀ out, sync_products html pretty = some out →
      ∃ s e : Nat,
        occursAt START html s ∧ (∀ j < s, ¬ occursAt START html j)
        ∧ occursAt END html e ∧ (∀ j < e, ¬ occursAt END html j)
        ∧ s ≤ e
        ∧ out = html.take (s + START.length) ++ syncRepl pretty ++ html.drop e
        ∧ out.take (s + START.length) = html.take (s + START.length)
        ∧ out.drop (out.length - (html.length - e)) = html.drop e)
    ∧ ((∀ i, ¬ occursAt START html i) → sync_products html pretty = none)
    ∧ ((∀ i, ¬ occursAt END html i) → sync_products html pretty = none)
    ∧ (∀ s e, occursAt START html s → (∀ j < s, ¬ occursAt START html j) →
        occursAt END html e → (∀ j < e, ¬ occursAt END html j) → e < s →
        sync_products html pretty = none) := by
  refine ⟨?_, ?_, ?_, ?_⟩
  · intro out hout
    unfold sync_products at hout
    cases hS : findSub START html with
    | none => rw [hS] at hout; cases hout
    | some s =>
      cases hE : findSub END html with
      | none => rw [hS, hE] at hout; cases hout
      | some e =>
        rw [hS, hE] at hout
        have hout2 : (if e < s then none
            else some (html.take (s + START.length) ++ syncRepl pretty ++ html.drop e))
            = some out := hout
        by_cases hlt : e < s
        · rw [if_pos hlt] at hout2
          cases hout2
        · rw [if_neg hlt] at hout2
          injection hout2 with hout
          obtain ⟨hoccS, hminS⟩ := findSub_some START html s hS
          obtain ⟨hoccE, hminE⟩ := findSub_some END html e hE
          have hsle : s + START.length ≤ html.length := occursAt_add_length_le hoccS
          have hele : e ≤ html.length := by
            have := occursAt_add_length_le hoccE
            omega
          refine ⟨s, e, hoccS, hminS, hoccE, hminE, by omega, hout.symm, ?_, ?_⟩
          · have hTlen : (html.take (s + START.length)).length = s + START.length := by
              rw [List.length_take]
              omega
            have h1 : out.take (s + START.length)
                = (html.take (s + START.length) ++ (syncRepl pretty ++ html.drop e)).take
                    ((html.take (s + START.length)).length) := by
              rw [← hout, List.append_assoc, hTlen]
            rw [h1, List.take_left]
          · have harith : out.length - (html.length - e)
                = (html.take (s + START.length) ++ syncRepl pretty).length := by
              rw [← hout]
              simp only [List.length_append, List.length_take, List.length_drop]
              omega
            rw [harith, ← hout, List.drop_left]
  · intro hno
    have hS : findSub START html = none := by
      cases hfs : findSub START html with
      | none => rfl
      | some i => exact absurd (findSub_some START html i hfs).1 (hno i)
    unfold sync_products
    rw [hS]
  · intro hno
    have hE : findSub END html = none := by
      cases hfs : findSub END html with
      | none => rfl
      | some i => exact absurd (findSub_some END html i hfs).1 (hno i)
    unfold sync_products
    rw [hE]
    cases findSub START html <;> rfl
  · intro s e hoccS hminS hoccE hminE hlt
    unfold sync_products
    rw [findSub_first hoccS hminS, findSub_first hoccE hminE]
    show (if e < s then none
        else some (html.take (s + START.length) ++ syncRepl pretty ++ html.drop e))
        = (none : Option (List Char))
    rw [if_pos hlt]

/-- Witness for C10: a text with no markers at all is refused. -/
theorem sync_products_frame_witness :
    sync_products "const PRODUCTS = 1;".toList "[]".toList = none :=
  (sync_products_frame "const PRODUCTS = 1;".toList "[]".toList).2.1
    (findSub_none START "const PRODUCTS = 1;".toList (by decide))

end Shengshui
